import Mathlib

/-!
Verification development for the AutoStrike agent (Rust sources under
src/agent/src).  The Rust code is shallowly embedded: byte streams are
lists of natural numbers below 256, strings are lists of characters,
paths are lists of path components, the filesystem and the process
environment are explicit parameters.  Each embedded definition carries a
reference to the Rust item it translates.
-/

set_option linter.unusedVariables false

namespace Agent

/-! ### UTF-8 primitives

Rust strings are UTF-8 byte sequences.  We model decoded text as
`List Char` and keep the byte view through the encoding functions below.
`charUtf8Size` is the number of bytes of the UTF-8 encoding of a scalar
value, exactly as in Rust `char::len_utf8`. -/

def charUtf8Size (c : Char) : Nat :=
  if c.toNat < 0x80 then 1
  else if c.toNat < 0x800 then 2
  else if c.toNat < 0x10000 then 3
  else 4

/-- Total number of UTF-8 bytes of a character list, i.e. Rust `str::len`. -/
def utf8Len (cs : List Char) : Nat := (cs.map charUtf8Size).sum

/-- UTF-8 encoding of one scalar value. -/
def utf8EncodeChar (c : Char) : List Nat :=
  let n := c.toNat
  if n < 0x80 then [n]
  else if n < 0x800 then [0xC0 + n / 0x40, 0x80 + n % 0x40]
  else if n < 0x10000 then
    [0xE0 + n / 0x1000, 0x80 + n / 0x40 % 0x40, 0x80 + n % 0x40]
  else
    [0xF0 + n / 0x40000, 0x80 + n / 0x1000 % 0x40, 0x80 + n / 0x40 % 0x40,
      0x80 + n % 0x40]

/-- UTF-8 encoding of a character list (Rust `str::as_bytes`). -/
def utf8Encode (cs : List Char) : List Nat := (cs.map utf8EncodeChar).flatten

/-- The replacement character U+FFFD used by lossy decoding. -/
def repChar : Char := Char.ofNat 0xFFFD

/-- Lossy UTF-8 decoding, `String::from_utf8_lossy`: well-formed sequences
decode to their scalar value, each maximal invalid subsequence becomes one
U+FFFD, following the error lengths of `core::str::Utf8Error`
(continuation ranges restricted for `0xE0`, `0xED`, `0xF0`, `0xF4` so that
overlongs, surrogates and values above U+10FFFF are rejected). -/
def utf8DecodeLossy : List Nat → List Char
  | [] => []
  | b :: bs =>
    if b < 0x80 then Char.ofNat b :: utf8DecodeLossy bs
    else if b < 0xC2 then repChar :: utf8DecodeLossy bs
    else if b < 0xE0 then
      match bs with
      | [] => [repChar]
      | c1 :: bs1 =>
        if 0x80 ≤ c1 ∧ c1 ≤ 0xBF then
          Char.ofNat ((b - 0xC0) * 0x40 + (c1 - 0x80)) :: utf8DecodeLossy bs1
        else repChar :: utf8DecodeLossy (c1 :: bs1)
    else if b < 0xF0 then
      match bs with
      | [] => [repChar]
      | c1 :: bs1 =>
        if (if b = 0xE0 then 0xA0 else 0x80) ≤ c1 ∧
            c1 ≤ (if b = 0xED then 0x9F else 0xBF) then
          match bs1 with
          | [] => [repChar]
          | c2 :: bs2 =>
            if 0x80 ≤ c2 ∧ c2 ≤ 0xBF then
              Char.ofNat ((b - 0xE0) * 0x1000 + (c1 - 0x80) * 0x40 + (c2 - 0x80)) ::
                utf8DecodeLossy bs2
            else repChar :: utf8DecodeLossy (c2 :: bs2)
        else repChar :: utf8DecodeLossy (c1 :: bs1)
    else if b < 0xF5 then
      match bs with
      | [] => [repChar]
      | c1 :: bs1 =>
        if (if b = 0xF0 then 0x90 else 0x80) ≤ c1 ∧
            c1 ≤ (if b = 0xF4 then 0x8F else 0xBF) then
          match bs1 with
          | [] => [repChar]
          | c2 :: bs2 =>
            if 0x80 ≤ c2 ∧ c2 ≤ 0xBF then
              match bs2 with
              | [] => [repChar]
              | c3 :: bs3 =>
                if 0x80 ≤ c3 ∧ c3 ≤ 0xBF then
                  Char.ofNat ((b - 0xF0) * 0x40000 + (c1 - 0x80) * 0x1000 +
                      (c2 - 0x80) * 0x40 + (c3 - 0x80)) :: utf8DecodeLossy bs3
                else repChar :: utf8DecodeLossy (c3 :: bs3)
            else repChar :: utf8DecodeLossy (c2 :: bs2)
        else repChar :: utf8DecodeLossy (c1 :: bs1)
    else repChar :: utf8DecodeLossy bs

/-- Unicode White_Space code points: the set recognised by Rust
`char::is_whitespace` and by the regex class `\s`. -/
def isRustWhitespace (c : Char) : Bool :=
  [0x9, 0xA, 0xB, 0xC, 0xD, 0x20, 0x85, 0xA0, 0x1680, 0x2000, 0x2001, 0x2002,
    0x2003, 0x2004, 0x2005, 0x2006, 0x2007, 0x2008, 0x2009, 0x200A, 0x2028,
    0x2029, 0x202F, 0x205F, 0x3000].contains c.toNat

/-- Rust `str::trim`: remove leading and trailing whitespace. -/
def rustTrim (cs : List Char) : List Char :=
  ((cs.dropWhile isRustWhitespace).reverse.dropWhile isRustWhitespace).reverse

/-! ### Execution engine (src/agent/src/executor.rs)

Byte streams are modelled as the list of chunks successive `read` calls
return; the shared atomic budget is threaded sequentially through the two
drains (the compare-and-swap claim loop makes every interleaving claim the
same totals, which is all the theorems use; with one stream empty the
sequential run is the exact behaviour). -/

/-- Maximum output size in bytes (1 MB), `executor.rs` line 22. -/
def MAX_OUTPUT_SIZE : Nat := 1048576

/-- Pure value of `claim_budget` (`executor.rs` lines 206 to 223): the
compare-and-swap loop claims `min want current` from the budget. -/
def claim_budget (budget want : Nat) : Nat := min want budget

/-- One drain of `drain_stream` (`executor.rs` lines 177 to 202): read
chunks until the stream ends, a zero-length read occurs, or the budget is
exhausted; keep only the claimed front of the final chunk.  Returns the
collected bytes and the remaining budget. -/
def drain_stream : List (List Nat) → Nat → List Nat × Nat
  | _, 0 => ([], 0)
  | [], b => ([], b)
  | chunk :: rest, b =>
    if chunk.length = 0 then ([], b)
    else
      let claimed := claim_budget b chunk.length
      if claimed < chunk.length then (chunk.take claimed, b - claimed)
      else
        let r := drain_stream rest (b - claimed)
        (chunk.take claimed ++ r.1, r.2)

/-- Rust `str::is_char_boundary` on the character-list view: a byte index
is a boundary when it is the total size of a character prefix. -/
def isCharBoundary : List Char → Nat → Bool
  | _, 0 => true
  | [], _ + 1 => false
  | c :: cs, i + 1 =>
    if i + 1 < charUtf8Size c then false
    else isCharBoundary cs (i + 1 - charUtf8Size c)

/-- Downward scan of `find_char_boundary` (`executor.rs` lines 231 to 234). -/
def boundaryDown (cs : List Char) : Nat → Nat
  | 0 => 0
  | b + 1 => if isCharBoundary cs (b + 1) then b + 1 else boundaryDown cs b

/-- Largest valid char boundary at or before `mx` bytes,
`find_char_boundary` (`executor.rs` lines 227 to 236). -/
def find_char_boundary (cs : List Char) (mx : Nat) : Nat :=
  if utf8Len cs ≤ mx then utf8Len cs else boundaryDown cs mx

/-- Rust `String::truncate` at a byte index that is a char boundary: keep
the characters that fit in the first `b` bytes. -/
def truncAt : List Char → Nat → List Char
  | _, 0 => []
  | [], _ + 1 => []
  | c :: cs, b + 1 =>
    if charUtf8Size c ≤ b + 1 then c :: truncAt cs (b + 1 - charUtf8Size c)
    else []

/-- The truncation marker appended by `execute` (`executor.rs` line 89). -/
def truncationMarker : List Char := "\n... [output truncated]".toList

/-- Result of a command execution (`executor.rs` lines 12 to 19). -/
structure ExecutionResult where
  success : Bool
  output : List Char
  exit_code : Option Int
  deriving DecidableEq

/-- Observable actions on the child process handle. -/
inductive ChildEvent
  | kill
  | wait
  deriving DecidableEq

/-- The `read_output` block of `execute` (`executor.rs` lines 78 to 92):
lossy-decode both buffers, concatenate stdout then stderr, trim, and when
the budget was exhausted truncate at the last char boundary at or before
the 1 MiB limit and append the truncation marker. -/
def assembleOutput (sbuf ebuf : List Nat) (truncated : Bool) : List Char :=
  if truncated then
    truncAt (rustTrim (utf8DecodeLossy sbuf ++ utf8DecodeLossy ebuf))
      (find_char_boundary (rustTrim (utf8DecodeLossy sbuf ++ utf8DecodeLossy ebuf))
        MAX_OUTPUT_SIZE) ++ truncationMarker
  else rustTrim (utf8DecodeLossy sbuf ++ utf8DecodeLossy ebuf)

/-- The race and result construction of `CommandExecutor::execute`
(`executor.rs` lines 35 to 125) after a successful spawn.  The
`tokio::select!` between output collection and the timeout timer is
modelled by the `timedOut` flag (the timer arm wins exactly when the
wall clock exceeds the limit while output is still being collected);
`waitRes` is the result of `child.wait()`.  The second component lists
the operations performed on the child process handle, in order. -/
def execute (stdoutChunks stderrChunks : List (List Nat)) (timedOut : Bool)
    (waitRes : Except Unit (Bool × Option Int)) :
    ExecutionResult × List ChildEvent :=
  if timedOut then
    (⟨false, "Command timed out".toList, none⟩, [ChildEvent.kill, ChildEvent.wait])
  else
    let s := drain_stream stdoutChunks MAX_OUTPUT_SIZE
    let e := drain_stream stderrChunks s.2
    let truncated := e.2 = 0
    let output := assembleOutput s.1 e.1 truncated
    match waitRes with
    | Except.ok (succ, code) => (⟨succ, output, code⟩, [ChildEvent.wait])
    | Except.error _ => (⟨false, output, none⟩, [ChildEvent.wait])

/-! ### Path model (src/agent/src/output_capture.rs)

Paths are modelled on the Unix platform (the platform of the /tmp safe
root and of the traversal examples): `std::path::Component` becomes the
inductive `Component` (no Windows prefixes on Unix), and parsing a string
into components follows `Path::components`: repeated separators collapse,
interior `.` components vanish, a leading `.` of a relative path stays. -/

/-- Unix `std::path::Component`. -/
inductive Component
  | rootDir
  | curDir
  | parentDir
  | normal (s : List Char)
  deriving DecidableEq

/-- Split a character list at `/` separators. -/
def splitSlash : List Char → List (List Char)
  | [] => [[]]
  | c :: cs =>
    let r := splitSlash cs
    if c = '/' then [] :: r
    else (c :: r.headI) :: r.tail

/-- Classification of one non-empty path segment. -/
def segComponent (s : List Char) : Component :=
  if s = ['.'] then Component.curDir
  else if s = ['.', '.'] then Component.parentDir
  else Component.normal s

/-- Rust `Path::components` on Unix: a leading `/` is `RootDir`, empty
segments disappear, `.` segments disappear except as the first component
of a relative path. -/
def parseUnixPath (cs : List Char) : List Component :=
  let segs := (splitSlash cs).filter (fun s => s ≠ [])
  let comps := segs.map segComponent
  if cs.head? = some '/' then
    Component.rootDir :: comps.filter (fun c => c ≠ Component.curDir)
  else
    match comps with
    | Component.curDir :: rest =>
      Component.curDir :: rest.filter (fun c => c ≠ Component.curDir)
    | l => l.filter (fun c => c ≠ Component.curDir)

/-- Rendering of one component (Unix `Path::display`). -/
def componentChars : Component → List Char
  | Component.rootDir => ['/']
  | Component.curDir => ['.']
  | Component.parentDir => ['.', '.']
  | Component.normal s => s

/-- Rendering of a path (Unix `Path::display`), used for the separator
lines of `read_output_files`. -/
def renderPath : List Component → List Char
  | [] => []
  | Component.rootDir :: rest =>
    '/' :: ((rest.map componentChars).intersperse ['/']).flatten
  | l => ((l.map componentChars).intersperse ['/']).flatten

/-- Whether the last pushed component is `Normal`
(`matches!(components.last(), Some(Component::Normal(_)))`). -/
def isNormalLast (acc : List Component) : Bool :=
  match acc.getLast? with
  | some (Component.normal _) => true
  | _ => false

/-- Accumulator loop of `normalize_path` (`output_capture.rs` lines 75
to 91): `..` pops only a trailing `Normal` component, `.` is dropped,
everything else is pushed. -/
def normGo (acc : List Component) : List Component → List Component
  | [] => acc
  | Component.parentDir :: rest =>
    if isNormalLast acc then normGo acc.dropLast rest else normGo acc rest
  | Component.curDir :: rest => normGo acc rest
  | Component.rootDir :: rest => normGo (acc ++ [Component.rootDir]) rest
  | Component.normal s :: rest => normGo (acc ++ [Component.normal s]) rest

/-- Logical normalization of `.` and `..` without filesystem access,
`normalize_path` (`output_capture.rs` lines 75 to 91). -/
def normalize_path (p : List Component) : List Component := normGo [] p

/-- The environment variables the module reads. -/
structure Env where
  temp : Option String
  tmp : Option String
  tmpdir : Option String
  userprofile : Option String
  home : Option String

/-- Variable lookup of `lookup_temp_dir` (`output_capture.rs` lines 59
to 64): `TEMP`, then `TMP`, then `TMPDIR`. -/
def lookup_temp_dir (e : Env) : Option String :=
  (e.temp.orElse fun _ => e.tmp).orElse fun _ => e.tmpdir

/-- Variable lookup of `lookup_home_dir` (`output_capture.rs` lines 67
to 71): `USERPROFILE`, then `HOME`. -/
def lookup_home_dir (e : Env) : Option String :=
  e.userprofile.orElse fun _ => e.home

/-- Unix `std::env::temp_dir`: `TMPDIR` unless unset or empty, else `/tmp`. -/
def temp_dir (e : Env) : String :=
  match e.tmpdir with
  | some t => if t = "" then "/tmp" else t
  | none => "/tmp"

/-- Rust `PathBuf::from(base).join(suffix)` at the string level: an
absolute suffix replaces the base, otherwise the suffix is appended after
a separator. -/
def joinStr (base : String) (suffix : List Char) : List Char :=
  if suffix.head? = some '/' then suffix
  else if base = "" then suffix
  else base.toList ++ '/' :: suffix

/-- Components of `/tmp`, the Unix safe root. -/
def tmpRoot : List Component := parseUnixPath "/tmp".toList

/-- Resolution of a suffix below the temp directory,
`resolve_temp_suffix` (`output_capture.rs` lines 95 to 103): join to the
base from the environment (default `/tmp`), normalize, and keep the
result only when it stays under the normalized temp directory or under
`/tmp`. -/
def resolve_temp_suffix (e : Env) (suffix : List Char) : Option (List Component) :=
  let base := (lookup_temp_dir e).getD "/tmp"
  let resolved := normalize_path (parseUnixPath (joinStr base suffix))
  let temp := normalize_path (parseUnixPath (temp_dir e).toList)
  if temp.isPrefixOf resolved ∨ tmpRoot.isPrefixOf resolved then some resolved
  else none

/-- Resolution of a suffix below the home directory,
`resolve_home_suffix` (`output_capture.rs` lines 106 to 108): a plain
join, with no normalization and no containment check. -/
def resolve_home_suffix (e : Env) (suffix : List Char) : Option (List Component) :=
  (lookup_home_dir e).map fun home => parseUnixPath (joinStr home suffix)

/-- Test for an ASCII letter, `u8::is_ascii_alphabetic`. -/
def isAsciiAlpha (c : Char) : Bool :=
  ('a' ≤ c ∧ c ≤ 'z') ∨ ('A' ≤ c ∧ c ≤ 'Z')

/-- Resolution of a raw redirect path, `resolve_path` (`output_capture.rs`
lines 113 to 151): Unix absolute paths are normalized and checked against
`/tmp`; Windows drive paths pass through; `$env:TEMP`, `%temp%`,
`$env:USERPROFILE` and `%userprofile%` placeholders (matched on the
lowercased string, separator `\` or `/`) delegate to the suffix
resolvers; anything else is rejected. -/
def resolve_path (e : Env) (raw : List Char) : Option (List Component) :=
  if raw.head? = some '/' then
    let normalized := normalize_path (parseUnixPath raw)
    if tmpRoot.isPrefixOf normalized then some normalized else none
  else if 3 ≤ raw.length ∧ raw.get? 1 = some ':' ∧
      (raw.get? 0).any isAsciiAlpha then
    some (parseUnixPath raw)
  else
    let lower := raw.map Char.toLower
    if ("$env:temp\\".toList.isPrefixOf lower ∨ "$env:temp/".toList.isPrefixOf lower) then
      resolve_temp_suffix e (raw.drop 10)
    else if ("%temp%\\".toList.isPrefixOf lower ∨ "%temp%/".toList.isPrefixOf lower) then
      resolve_temp_suffix e (raw.drop 7)
    else if ("$env:userprofile\\".toList.isPrefixOf lower ∨
        "$env:userprofile/".toList.isPrefixOf lower) then
      resolve_home_suffix e (raw.drop 17)
    else if ("%userprofile%\\".toList.isPrefixOf lower ∨
        "%userprofile%/".toList.isPrefixOf lower) then
      resolve_home_suffix e (raw.drop 14)
    else none

/-- Filesystem model: `canon` is `std::fs::canonicalize` (symlink and
existence resolution; `none` when the path cannot be resolved), `fileAt`
gives the byte content of the regular file at a canonical location
(`none` for directories and missing files). -/
structure Fs where
  canon : List Component → Option (List Component)
  fileAt : List Component → Option (List Nat)

/-- Containment of a canonical location in one of the safe directories
(`std::env::temp_dir()` and `/tmp`), each canonicalized: the body of the
closure in `is_safe_path` (`output_capture.rs` lines 161 to 169). -/
def safeLoc (e : Env) (fs : Fs) (loc : List Component) : Bool :=
  [parseUnixPath (temp_dir e).toList, tmpRoot].any fun d =>
    match fs.canon d with
    | some cd => cd.isPrefixOf loc
    | none => false

/-- Canonical-path safety check, `is_safe_path` (`output_capture.rs`
lines 155 to 170): canonicalize the resolved path (failure means the file
does not exist) and require containment in a canonicalized safe
directory. -/
def is_safe_path (e : Env) (fs : Fs) (p : List Component) : Bool :=
  match fs.canon p with
  | none => false
  | some c => safeLoc e fs c

/-- Budgeted read of one file, `read_single_file` (`output_capture.rs`
lines 174 to 194): resolve the path on disk (metadata and open follow
symlinks, hence the canonical location), require a regular file, read
`min len budget` bytes, fail on zero bytes.  Returns the bytes read,
their count, and the canonical location they came from. -/
def read_single_file (fs : Fs) (p : List Component) (budget : Nat) :
    Option (List Nat × Nat × List Component) :=
  match fs.canon p with
  | none => none
  | some c =>
    match fs.fileAt c with
    | none => none
    | some content =>
      let toRead := min content.length budget
      if toRead = 0 then none
      else some (content.take toRead, toRead, c)

/-- Maximum total bytes read from output files (1 MB),
`output_capture.rs` line 15. -/
def MAX_FILE_READ_SIZE : Nat := 1048576

/-- Separator pushed between two file contents
(`output_capture.rs` lines 219 to 221). -/
def fileSeparator (p : List Component) : List Char :=
  "\n--- ".toList ++ renderPath p ++ " ---\n".toList

/-- Marker appended when the total read budget is exhausted
(`output_capture.rs` line 226). -/
def fileTruncationMarker : List Char := "\n... [file output truncated]".toList

/-- Loop of `read_output_files` (`output_capture.rs` lines 198 to 234):
resolve each raw path, skip it unless `is_safe_path` accepts it, read it
under the remaining budget, and stop after appending the truncation
marker once the budget hits zero.  The second component is the trace of
canonical locations whose bytes were returned. -/
def readFilesGo (e : Env) (fs : Fs) :
    List (List Char) → List Char → Nat → List (List Component) →
    List Char × List (List Component)
  | [], comb, _, tr => (comb, tr)
  | raw :: rest, comb, budget, tr =>
    match resolve_path e raw with
    | none => readFilesGo e fs rest comb budget tr
    | some p =>
      if is_safe_path e fs p then
        match read_single_file fs p budget with
        | none => readFilesGo e fs rest comb budget tr
        | some (bytes, n, c) =>
          let comb2 := (if comb.isEmpty then comb else comb ++ fileSeparator p) ++
            utf8DecodeLossy bytes
          let b2 := budget - n
          if b2 = 0 then (comb2 ++ fileTruncationMarker, tr ++ [c])
          else readFilesGo e fs rest comb2 b2 (tr ++ [c])
      else readFilesGo e fs rest comb budget tr

/-- Combined content of all readable output files, `read_output_files`
(`output_capture.rs` lines 198 to 241), with the trace of canonical
locations read. -/
def read_output_files (e : Env) (fs : Fs) (paths : List (List Char)) :
    Option (List Char) × List (List Component) :=
  let r := readFilesGo e fs paths [] MAX_FILE_READ_SIZE []
  (if r.1.isEmpty then none else some r.1, r.2)

/-! ### Redirect extraction (src/agent/src/output_capture.rs lines 18 to 56)

The concrete regular expressions of `extract_output_paths` are embedded
as deterministic scanners.  Each pattern is anchored nowhere and scanned
left to right over the command, exactly like `Regex::captures_iter`:
at each position the pattern either matches (the scan continues after the
match, which always ends at the end of capture group 1) or the scan moves
one character right.  For these patterns greedy matching with maximal
munch is equivalent to backtracking, because the literal after `\s*` can
never begin with a whitespace character and the alternative branches
start with distinct literals. -/

/-- A character of the class `[^\s;|&"']` used by every capture group. -/
def allowedPathChar (c : Char) : Bool :=
  ¬ isRustWhitespace c ∧ c ∉ [';', '|', '&', '"', Char.ofNat 39]

/-- Case-sensitive literal matcher; returns the rest after the literal. -/
def matchLit : List Char → List Char → Option (List Char)
  | [], s => some s
  | _, [] => none
  | l :: lt, c :: ct => if c = l then matchLit lt ct else none

/-- Case-insensitive literal matcher (the literal is given lowercase, as
under the regex flag `(?i)`); returns the consumed original characters
and the rest. -/
def matchLitCI : List Char → List Char → Option (List Char × List Char)
  | [], s => some ([], s)
  | _, [] => none
  | l :: lt, c :: ct =>
    if c.toLower = l then (matchLitCI lt ct).map fun r => (c :: r.1, r.2)
    else none

/-- Group alternative: a literal (matched case-insensitively) followed by
one or more `allowedPathChar`; the capture is the original text. -/
def litGroupCI (lit : List Char) (s : List Char) : Option (List Char × List Char) :=
  match matchLitCI lit s with
  | none => none
  | some (pre, rest) =>
    let run := rest.takeWhile allowedPathChar
    if run.isEmpty then none
    else some (pre ++ run, rest.dropWhile allowedPathChar)

/-- Case-sensitive variant of `litGroupCI`. -/
def litGroupCS (lit : List Char) (s : List Char) : Option (List Char × List Char) :=
  match matchLit lit s with
  | none => none
  | some rest =>
    let run := rest.takeWhile allowedPathChar
    if run.isEmpty then none
    else some (lit ++ run, rest.dropWhile allowedPathChar)

/-- Matcher for `>{1,2}\s*` (greedy, equivalent to the regex since the
following literal starts with a non-whitespace, non-`>` character). -/
def matchRedirOp : List Char → Option (List Char)
  | '>' :: rest =>
    let rest2 := match rest with
      | '>' :: r2 => r2
      | _ => rest
    some (rest2.dropWhile isRustWhitespace)
  | _ => none

/-- The capture group
`(\$env:TEMP\\[^\s;|&"']+|\$env:USERPROFILE\\[^\s;|&"']+)` under `(?i)`. -/
def groupEnvTempOrProfile (s : List Char) : Option (List Char × List Char) :=
  match litGroupCI "$env:temp\\".toList s with
  | some r => some r
  | none => litGroupCI "$env:userprofile\\".toList s

/-- The capture group
`(%temp%\\[^\s;|&"']+|%userprofile%\\[^\s;|&"']+)` under `(?i)`. -/
def groupPctTempOrProfile (s : List Char) : Option (List Char × List Char) :=
  match litGroupCI "%temp%\\".toList s with
  | some r => some r
  | none => litGroupCI "%userprofile%\\".toList s

/-- One match attempt of the pattern
`>{1,2}\s*(/tmp/[^\s;|&"']+)` (`output_capture.rs` line 40). -/
def tryShRedirect (s : List Char) : Option (List Char × List Char) :=
  match matchRedirOp s with
  | none => none
  | some rest => litGroupCS "/tmp/".toList rest

/-- One match attempt of the cmd pattern (`output_capture.rs` line 43). -/
def tryCmdRedirect (s : List Char) : Option (List Char × List Char) :=
  match matchRedirOp s with
  | none => none
  | some rest => groupPctTempOrProfile rest

/-- One match attempt of the PowerShell redirection pattern
(`output_capture.rs` line 48). -/
def tryPsRedirect (s : List Char) : Option (List Char × List Char) :=
  match matchRedirOp s with
  | none => none
  | some rest => groupEnvTempOrProfile rest

/-- Shared shape of the `Out-File` and `Set-Content` patterns
(`output_capture.rs` lines 49 and 50): the command-let name, one or more
whitespace characters, an optional flag (itself followed by whitespace),
then the environment-placeholder group.  The optional flag begins with
`-` while the group begins with `$`, so trying the flag first is
equivalent to regex backtracking. -/
def tryCmdlet (name flag : List Char) (s : List Char) : Option (List Char × List Char) :=
  match matchLitCI name s with
  | none => none
  | some (_, rest) =>
    if (rest.takeWhile isRustWhitespace).isEmpty then none
    else
      let rest2 := rest.dropWhile isRustWhitespace
      let withFlag :=
        match matchLitCI flag rest2 with
        | none => none
        | some (_, r3) =>
          if (r3.takeWhile isRustWhitespace).isEmpty then none
          else groupEnvTempOrProfile (r3.dropWhile isRustWhitespace)
      match withFlag with
      | some r => some r
      | none => groupEnvTempOrProfile rest2

/-- One match attempt of
`(?i)Out-File\s+(?:-FilePath\s+)?(...)` (`output_capture.rs` line 49). -/
def tryOutFile (s : List Char) : Option (List Char × List Char) :=
  tryCmdlet "out-file".toList "-filepath".toList s

/-- One match attempt of
`(?i)Set-Content\s+(?:-Path\s+)?(...)` (`output_capture.rs` line 50). -/
def trySetContent (s : List Char) : Option (List Char × List Char) :=
  tryCmdlet "set-content".toList "-path".toList s

/-- Fuelled scan implementing `Regex::captures_iter`: try the pattern at
every position left to right, continuing after each match.  Every
pattern consumes at least one character and returns a suffix, so fuel
equal to the length of the text is always sufficient. -/
def scanGo (pat : List Char → Option (List Char × List Char)) :
    Nat → List Char → List (List Char)
  | 0, _ => []
  | _ + 1, [] => []
  | f + 1, c :: t =>
    match pat (c :: t) with
    | some (cap, rest) => cap :: scanGo pat f rest
    | none => scanGo pat f t

/-- All group-1 captures of a pattern over a command, in match order. -/
def scanMatches (pat : List Char → Option (List Char × List Char))
    (s : List Char) : List (List Char) :=
  scanGo pat s.length s

/-- Push with first-occurrence deduplication
(`output_capture.rs` lines 25 to 27). -/
def pushUnique (acc : List (List Char)) (p : List Char) : List (List Char) :=
  if acc.contains p then acc else acc ++ [p]

/-- Unique group-1 matches of a pattern list over a command,
`collect_matches` (`output_capture.rs` lines 18 to 32): patterns are
processed in order, each contributing its matches left to right, into one
deduplicated accumulator. -/
def collect_matches (s : List Char)
    (pats : List (List Char → Option (List Char × List Char))) :
    List (List Char) :=
  pats.foldl (fun acc pat => (scanMatches pat s).foldl pushUnique acc) []

/-- Dialect dispatch of `extract_output_paths` (`output_capture.rs`
lines 38 to 56). -/
def extract_output_paths (command : List Char) (executor_type : String) :
    List (List Char) :=
  if executor_type = "sh" ∨ executor_type = "bash" ∨ executor_type = "zsh" then
    collect_matches command [tryShRedirect]
  else if executor_type = "cmd" then
    collect_matches command [tryCmdRedirect]
  else if executor_type = "powershell" ∨ executor_type = "ps" ∨
      executor_type = "pwsh" ∨ executor_type = "powershell7" then
    collect_matches command [tryPsRedirect, tryOutFile, trySetContent, tryShRedirect]
  else []

/-- Threshold in bytes below which file-based capture is attempted,
`output_capture.rs` line 12. -/
def OUTPUT_THRESHOLD : Nat := 50

/-- Output enrichment, `enrich_output` (`output_capture.rs` lines 247
to 267): when the trimmed original output reaches the threshold it is
returned as is; otherwise the extracted redirect targets are read and
their combined content replaces the output when non-empty.  The second
component is the trace of canonical file locations read. -/
def enrich_output (e : Env) (fs : Fs) (command : List Char)
    (executor_type : String) (original_output : List Char) :
    List Char × List (List Component) :=
  if OUTPUT_THRESHOLD ≤ utf8Len (rustTrim original_output) then
    (original_output, [])
  else
    let paths := extract_output_paths command executor_type
    if paths.isEmpty then (original_output, [])
    else
      match read_output_files e fs paths with
      | (some fileContent, tr) => (fileContent, tr)
      | (none, tr) => (original_output, tr)

/-! ### Session manager (src/agent/src/client.rs)

The reconnect loop, the message dispatch and the outbound queue are
embedded as explicit state functions; the `tokio` channel is a FIFO list
of serialized messages (a bounded `mpsc` sender suspends on a full
queue and never drops, so capacity does not affect the retention
property). -/

/-- Task payload received from the server (`client.rs` lines 48 to 61). -/
structure TaskPayload where
  id : String
  technique_id : String
  command : String
  executor : String
  timeout : Option Nat
  cleanup : Option String
  deriving DecidableEq

/-- Observable effects of `handle_message`: spawning a detached task
execution unit, or enqueueing a serialized message on the outbound
channel. -/
inductive HandleEffect
  | spawnTask (t : TaskPayload)
  | send (msg : String)
  deriving DecidableEq

/-- Inbound dispatch, `AgentClient::handle_message` (`client.rs` lines
232 to 262): `task` spawns a detached execution unit (an unparseable
task payload is the only error path), `ping` enqueues a serialized
`pong`, any other discriminant is logged and ignored.  `taskParse` is
the result of deserializing the payload as a `TaskPayload`. -/
def handle_message (msgType : String) (taskParse : Option TaskPayload) :
    Except Unit (List HandleEffect) :=
  if msgType = "task" then
    match taskParse with
    | some t => Except.ok [HandleEffect.spawnTask t]
    | none => Except.error ()
  else if msgType = "ping" then
    Except.ok [HandleEffect.send "pong"]
  else Except.ok []

/-- Backoff trace of the reconnect loop, `AgentClient::run` (`client.rs`
lines 83 to 106): starting from the current retry delay in seconds,
process each connection attempt outcome (`true` when `connect_and_run`
returned `Ok`, i.e. the attempt reached the active state and the
connection closed cleanly); a failure sleeps the current delay and then
doubles it with a 60 second cap, a clean close resets the delay to 1
without sleeping.  Returns the list of slept delays in order. -/
def backoffTrace (delay : Nat) : List Bool → List Nat
  | [] => []
  | ok :: rest =>
    if ok then backoffTrace 1 rest
    else delay :: backoffTrace (min (delay * 2) 60) rest

/-- Capacity of the outbound channel (`client.rs` line 87). -/
def QUEUE_CAPACITY : Nat := 256

/-- Events of the outbound queue (`client.rs` lines 87, 180 to 186): a
producer (heartbeat tick or finished task) enqueues a serialized
message, or the write arm of the select loop fires: `rx.recv()` removes
the front message from the channel and `write.send` either succeeds
(`writeOk = true`, the message is on the wire) or fails
(`writeOk = false`, the loop breaks with `Err` and the dequeued message
is dropped without being re-enqueued).  While disconnected no `deliver`
event occurs, but `enqueue` events still do. -/
inductive QEvent
  | enqueue (m : String)
  | deliver (writeOk : Bool)
  deriving DecidableEq

/-- One step of the outbound queue: the state is the pending FIFO, the
messages written to a socket, and the messages lost to a failed write
(`client.rs` lines 182 to 185: `break Err` after `rx.recv()` has
already removed the message). -/
def queueStep :
    List String × List String × List String → QEvent →
      List String × List String × List String
  | (q, sent, lost), QEvent.enqueue m => (q ++ [m], sent, lost)
  | ([], sent, lost), QEvent.deliver _ => ([], sent, lost)
  | (m :: t, sent, lost), QEvent.deliver true => (t, sent ++ [m], lost)
  | (m :: t, sent, lost), QEvent.deliver false => (t, sent, lost ++ [m])

/-- The outbound queue over a whole agent run, `AgentClient::run`
(`client.rs` lines 83 to 106): the channel is created exactly once,
empty, before the reconnect loop, and the same state is threaded through
every connection attempt (`connect_and_run` borrows the sender and
receiver; nothing ever recreates them).  Returns (pending, sent, lost). -/
def runQueue (events : List QEvent) : List String × List String × List String :=
  events.foldl queueStep ([], [], [])

/-- The messages enqueued over a run, in order. -/
def enqueuedOf (events : List QEvent) : List String :=
  events.filterMap fun ev =>
    match ev with
    | QEvent.enqueue m => some m
    | QEvent.deliver _ => none

/-! ### Helper lemmas -/

lemma minPowDouble (j : Nat) : min (min (2 ^ j) 60 * 2) 60 = min (2 ^ (j + 1)) 60 := by
  rcases le_or_lt (2 ^ j) 60 with h | h
  · rw [min_eq_left h, pow_succ]
  · have h2 : 60 < 2 ^ (j + 1) := by
      calc 60 < 2 ^ j := h
        _ ≤ 2 ^ (j + 1) := Nat.pow_le_pow_right (by norm_num) (Nat.le_succ j)
    omega

lemma backoffTrace_replicate (n j : Nat) :
    backoffTrace (min (2 ^ j) 60) (List.replicate n false) =
      (List.range n).map fun k => min (2 ^ (j + k)) 60 := by
  induction n generalizing j with
  | zero => simp [backoffTrace]
  | succ n ih =>
    rw [List.replicate_succ]
    show min (2 ^ j) 60 ::
        backoffTrace (min (min (2 ^ j) 60 * 2) 60) (List.replicate n false) = _
    rw [minPowDouble j, ih (j + 1), List.range_succ_eq_map, List.map_cons,
      List.map_map]
    refine congrArg₂ _ (by simp) (List.map_congr_left fun k _ => ?_)
    simp only [Function.comp_apply]
    have he : j + 1 + k = j + (k + 1) := by omega
    simp [Nat.succ_eq_add_one, he]

lemma dropLast_cons_head (a : Component) (l : List Component) (h : l ≠ []) :
    ((a :: l).dropLast).head? = some a := by
  cases l with
  | nil => exact absurd rfl h
  | cons b t => simp [List.dropLast]

lemma normGo_good (p : List Component) :
    ∀ acc, (∀ c ∈ acc, c ≠ Component.parentDir ∧ c ≠ Component.curDir) →
      ∀ c ∈ normGo acc p, c ≠ Component.parentDir ∧ c ≠ Component.curDir := by
  induction p with
  | nil => intro acc hacc c hc; exact hacc c hc
  | cons hd tl ih =>
    intro acc hacc c hc
    cases hd with
    | parentDir =>
      rw [normGo] at hc
      by_cases hlast : isNormalLast acc
      · rw [if_pos hlast] at hc
        exact ih _ (fun x hx => hacc x ((List.dropLast_sublist acc).subset hx)) c hc
      · rw [if_neg hlast] at hc
        exact ih _ hacc c hc
    | curDir => exact ih _ hacc c (by rwa [normGo] at hc)
    | rootDir =>
      refine ih _ ?_ c (by rwa [normGo] at hc)
      intro x hx
      rcases List.mem_append.1 hx with h | h
      · exact hacc x h
      · simp only [List.mem_singleton] at h; subst h
        exact ⟨(fun hh => nomatch hh), (fun hh => nomatch hh)⟩
    | normal s =>
      refine ih _ ?_ c (by rwa [normGo] at hc)
      intro x hx
      rcases List.mem_append.1 hx with h | h
      · exact hacc x h
      · simp only [List.mem_singleton] at h; subst h
        exact ⟨(fun hh => nomatch hh), (fun hh => nomatch hh)⟩

lemma normGo_rootHead (p : List Component) :
    ∀ acc, acc.head? = some Component.rootDir →
      (normGo acc p).head? = some Component.rootDir := by
  induction p with
  | nil => intro acc h; exact h
  | cons hd tl ih =>
    intro acc h
    cases acc with
    | nil => simp at h
    | cons a rest =>
      simp only [List.head?_cons, Option.some.injEq] at h
      subst h
      cases hd with
      | parentDir =>
        rw [normGo]
        by_cases hlast : isNormalLast (Component.rootDir :: rest)
        · rw [if_pos hlast]
          refine ih _ ?_
          have hrest : rest ≠ [] := by
            intro hnil
            subst hnil
            simp [isNormalLast] at hlast
          rw [dropLast_cons_head _ _ hrest]
        · rw [if_neg hlast]; exact ih _ rfl
      | curDir => rw [normGo]; exact ih _ rfl
      | rootDir => rw [normGo]; exact ih _ rfl
      | normal s => rw [normGo]; exact ih _ rfl

/-! ### Claim theorems (first group) -/

/-- C3: on the timeout arm of the race in `CommandExecutor::execute`
(taken exactly when the wall clock exceeds the time limit while output
is still being collected), the result is exactly
`{success: false, output: "Command timed out", exit_code: None}`,
independent of whatever stdout/stderr bytes were already drained and of
the wait outcome (the partial output is discarded), and the child is
killed and then waited on, in that order, before the result is
returned. -/
theorem c3_timeout_outcome (stdoutChunks stderrChunks : List (List Nat))
    (waitRes : Except Unit (Bool × Option Int)) :
    execute stdoutChunks stderrChunks true waitRes =
      (⟨false, "Command timed out".toList, none⟩,
        [ChildEvent.kill, ChildEvent.wait]) := rfl

/-- C4: in the reconnect run loop the waits slept during a sequence of
consecutive failed connection attempts are exactly
`min (2 ^ (k - 1)) 60` seconds before the k-th retry (1 second before
the first retry, doubling after each failure, capped at 60), and an
attempt that reaches the active state and disconnects cleanly resets the
delay to the 1 second base regardless of its accumulated value. -/
theorem c4_backoff_doubling_and_reset :
    (∀ n : Nat, backoffTrace 1 (List.replicate n false) =
      (List.range n).map fun k => min (2 ^ k) 60) ∧
    (∀ (d : Nat) (rest : List Bool),
      backoffTrace d (true :: rest) = backoffTrace 1 rest) := by
  constructor
  · intro n
    have h := backoffTrace_replicate n 0
    simpa using h
  · intro d rest
    simp [backoffTrace]

lemma runQueue_aux (evs : List QEvent) :
    ∀ q sent lost : List String,
      ((evs.foldl queueStep (q, sent, lost)).2.1 ++
          (evs.foldl queueStep (q, sent, lost)).1).Sublist
        ((sent ++ q) ++ enqueuedOf evs) ∧
      (evs.foldl queueStep (q, sent, lost)).2.2.length ≤
        lost.length + (evs.countP fun ev => ev == QEvent.deliver false) ∧
      ((∀ ev ∈ evs, ev ≠ QEvent.deliver false) →
        (evs.foldl queueStep (q, sent, lost)).2.1 ++
            (evs.foldl queueStep (q, sent, lost)).1 =
          (sent ++ q) ++ enqueuedOf evs) := by
  induction evs with
  | nil =>
    intro q sent lost
    refine ⟨by simp [enqueuedOf], by simp [enqueuedOf], fun _ => by simp [enqueuedOf]⟩
  | cons ev rest ih =>
    intro q sent lost
    cases ev with
    | enqueue m =>
      have h := ih (q ++ [m]) sent lost
      simp only [List.foldl_cons, queueStep, enqueuedOf, List.filterMap_cons,
        List.countP_cons] at h ⊢
      refine ⟨h.1.trans (by simp), ?_, fun hno => ?_⟩
      · have := h.2.1
        simp
        omega
      · rw [h.2.2 (fun e he => hno e (List.mem_cons_of_mem _ he))]
        simp
    | deliver ok =>
      cases q with
      | nil =>
        have h := ih [] sent lost
        simp only [List.foldl_cons, queueStep, enqueuedOf, List.filterMap_cons,
          List.countP_cons] at h ⊢
        refine ⟨h.1, ?_, fun hno => ?_⟩
        · have := h.2.1
          simp
          omega
        · exact h.2.2 (fun e he => hno e (List.mem_cons_of_mem _ he))
      | cons m t =>
        cases ok with
        | true =>
          have h := ih t (sent ++ [m]) lost
          simp only [List.foldl_cons, queueStep, enqueuedOf, List.filterMap_cons,
            List.countP_cons] at h ⊢
          refine ⟨h.1.trans (by simp), ?_, fun hno => ?_⟩
          · have := h.2.1
            simp
            omega
          · rw [h.2.2 (fun e he => hno e (List.mem_cons_of_mem _ he))]
            simp
        | false =>
          have h := ih t sent (lost ++ [m])
          simp only [List.foldl_cons, queueStep, enqueuedOf, List.filterMap_cons,
            List.countP_cons] at h ⊢
          refine ⟨?_, ?_, fun hno => ?_⟩
          · refine h.1.trans ?_
            have h2 : ((t : List String) ++ enqueuedOf rest).Sublist
                ((m :: t) ++ enqueuedOf rest) :=
              (List.sublist_cons_self m t).append_right _
            have h3 := List.Sublist.append_left h2 sent
            simpa [List.append_assoc, enqueuedOf] using h3
          · have := h.2.1
            simp at this ⊢
            omega
          · exact absurd rfl (hno (QEvent.deliver false) (List.mem_cons_self _ _))

/-- C5 (amended): the outbound queue is created exactly once per agent
run (initialized empty before the reconnect loop) and the same FIFO
state is threaded through every connection attempt, so the reconnect
machinery itself never drops a message: over any interleaving of
enqueues and write attempts, the messages written to a socket followed
by the messages still pending form a subsequence of the enqueued
messages, at most one message is lost per failed socket write, and in
any run whose socket writes all succeed the written and pending
messages are exactly the enqueued messages in FIFO order.  A message
dequeued by the write arm is, however, dropped when its `write.send`
fails, so delivery on the next successful connection is not guaranteed
for that one message. -/
theorem c5_queue_retention :
    (∀ events : List QEvent,
      ((runQueue events).2.1 ++ (runQueue events).1).Sublist (enqueuedOf events)) ∧
    (∀ events : List QEvent,
      (runQueue events).2.2.length ≤
        events.countP fun ev => ev == QEvent.deliver false) ∧
    (∀ events : List QEvent, (∀ ev ∈ events, ev ≠ QEvent.deliver false) →
      (runQueue events).2.1 ++ (runQueue events).1 = enqueuedOf events) := by
  refine ⟨fun evs => ?_, fun evs => ?_, fun evs hno => ?_⟩
  · have h := (runQueue_aux evs [] [] []).1
    simpa [runQueue] using h
  · have h := (runQueue_aux evs [] [] []).2.1
    simpa [runQueue] using h
  · have h := (runQueue_aux evs [] [] []).2.2 hno
    simpa [runQueue] using h

/-- Witness for C5 (amended): a run whose single write succeeds delivers
exactly the enqueued message. -/
theorem c5_witness :
    (∀ ev ∈ [QEvent.enqueue "r", QEvent.deliver true], ev ≠ QEvent.deliver false) ∧
    (runQueue [QEvent.enqueue "r", QEvent.deliver true]).2.1 ++
        (runQueue [QEvent.enqueue "r", QEvent.deliver true]).1 =
      enqueuedOf [QEvent.enqueue "r", QEvent.deliver true] :=
  ⟨by decide, c5_queue_retention.2.2 _ (by decide)⟩

/-- Counterexample to C5 as stated: a task result enqueued while the
connection is down is dequeued on the next connection by the write arm
and dropped when the socket write fails (`client.rs` lines 182 to 185
break with `Err` without re-enqueueing), so it is neither delivered nor
still pending on any later connection: the queue is not lossless. -/
theorem c5_counterexample :
    (runQueue [QEvent.enqueue "task_result", QEvent.deliver false]).2.1 = [] ∧
    (runQueue [QEvent.enqueue "task_result", QEvent.deliver false]).1 = [] ∧
    (runQueue [QEvent.enqueue "task_result", QEvent.deliver false]).2.2 =
      ["task_result"] ∧
    enqueuedOf [QEvent.enqueue "task_result", QEvent.deliver false] =
      ["task_result"] := by
  decide

/-- C8: whenever the trimmed original output is at least the 50 byte
threshold, `enrich_output` returns the original output byte for byte and
reads no file (the trace of file reads is empty; the result does not
depend on the filesystem). -/
theorem c8_threshold_skips_enrichment (e : Env) (fs : Fs) (command : List Char)
    (executor_type : String) (original_output : List Char)
    (h : OUTPUT_THRESHOLD ≤ utf8Len (rustTrim original_output)) :
    enrich_output e fs command executor_type original_output =
      (original_output, []) := by
  simp [enrich_output, h]

/-- C9: an inbound message whose discriminant is neither `task` nor
`ping` makes `handle_message` return `Ok` with no outbound message and
no spawned task, hence the connection continues. -/
theorem c9_unknown_discriminant_ignored (msgType : String)
    (taskParse : Option TaskPayload) (h1 : msgType ≠ "task")
    (h2 : msgType ≠ "ping") :
    handle_message msgType taskParse = Except.ok [] := by
  simp [handle_message, h1, h2]

/-- C10: `normalize_path` yields a path with no `..` and no `.`
component, and a `..` never pops a `RootDir` (it pops only `Normal`
components), so a path starting at the root normalizes to a path still
starting at that root. -/
theorem c10_normalize_no_dots_keeps_root (p : List Component) :
    (∀ c ∈ normalize_path p,
      c ≠ Component.parentDir ∧ c ≠ Component.curDir) ∧
    (p.head? = some Component.rootDir →
      (normalize_path p).head? = some Component.rootDir) := by
  constructor
  · exact normGo_good p [] (by simp)
  · intro h
    cases p with
    | nil => simp at h
    | cons a rest =>
      simp only [List.head?_cons, Option.some.injEq] at h
      subst h
      show (normGo [] (Component.rootDir :: rest)).head? = some Component.rootDir
      rw [normGo]
      exact normGo_rootHead rest [Component.rootDir] rfl

/-! ### Witnesses for the first group -/

/-- Witness environment: no relevant variable set. -/
def env0 : Env := ⟨none, none, none, none, none⟩

/-- Witness filesystem: `/tmp` is its own canonical form and
`/tmp/x.txt` is a regular file containing the two bytes of `hi`. -/
def fs0 : Fs where
  canon p :=
    if p = tmpRoot then some tmpRoot
    else if p = parseUnixPath "/tmp/x.txt".toList then
      some (parseUnixPath "/tmp/x.txt".toList)
    else none
  fileAt c :=
    if c = parseUnixPath "/tmp/x.txt".toList then some [104, 105] else none

/-- Witness for C8 at a 50 byte output: enrichment is skipped. -/
theorem c8_witness :
    enrich_output env0 fs0 "ps >> /tmp/loot.txt".toList "bash"
      (List.replicate 50 'x') = (List.replicate 50 'x', []) :=
  c8_threshold_skips_enrichment env0 fs0 _ _ _ (by decide)

/-- Witness for C9 at the discriminant `banana`. -/
theorem c9_witness : handle_message "banana" none = Except.ok [] :=
  c9_unknown_discriminant_ignored "banana" none (by decide) (by decide)

/-- Witness for C10 at the traversal path `/tmp/../../etc/passwd`. -/
theorem c10_witness :
    (normalize_path (parseUnixPath "/tmp/../../etc/passwd".toList)).head? =
      some Component.rootDir ∧
    ∀ c ∈ normalize_path (parseUnixPath "/tmp/../../etc/passwd".toList),
      c ≠ Component.parentDir ∧ c ≠ Component.curDir :=
  ⟨(c10_normalize_no_dots_keeps_root _).2 (by decide),
    (c10_normalize_no_dots_keeps_root _).1⟩

/-! ### Claim C1: the enrichment read pipeline only reads under the safe roots -/

lemma read_single_file_canon {fs : Fs} {p : List Component} {budget : Nat}
    {bytes : List Nat} {n : Nat} {c : List Component}
    (h : read_single_file fs p budget = some (bytes, n, c)) :
    fs.canon p = some c := by
  simp only [read_single_file] at h
  split at h
  · cases h
  · rename_i c0 hc
    split at h
    · cases h
    · rename_i content hf
      split at h
      · cases h
      · simp only [Option.some.injEq, Prod.mk.injEq] at h
        rw [hc, h.2.2]

lemma is_safe_path_imp_safeLoc {e : Env} {fs : Fs} {p c : List Component}
    (hc : fs.canon p = some c) (h : is_safe_path e fs p = true) :
    safeLoc e fs c = true := by
  unfold is_safe_path at h
  rwa [hc] at h

lemma readFilesGo_trace_safe (e : Env) (fs : Fs) (paths : List (List Char)) :
    ∀ (comb : List Char) (budget : Nat) (tr : List (List Component)),
      (∀ loc ∈ tr, safeLoc e fs loc = true) →
      ∀ loc ∈ (readFilesGo e fs paths comb budget tr).2,
        safeLoc e fs loc = true := by
  induction paths with
  | nil =>
    intro comb budget tr htr loc hloc
    rw [readFilesGo] at hloc
    exact htr loc hloc
  | cons raw rest ih =>
    intro comb budget tr htr loc hloc
    cases hres : resolve_path e raw with
    | none =>
      simp only [readFilesGo, hres] at hloc
      exact ih _ _ _ htr loc hloc
    | some p =>
      by_cases hsafe : is_safe_path e fs p = true
      · cases hread : read_single_file fs p budget with
        | none =>
          simp only [readFilesGo, hres, hsafe, if_true, hread] at hloc
          exact ih _ _ _ htr loc hloc
        | some t =>
          obtain ⟨bytes, n, c⟩ := t
          have hcanon := read_single_file_canon hread
          have hcs : safeLoc e fs c = true := is_safe_path_imp_safeLoc hcanon hsafe
          have htr2 : ∀ l ∈ tr ++ [c], safeLoc e fs l = true := by
            intro l hl
            rcases List.mem_append.1 hl with hl | hl
            · exact htr l hl
            · simp only [List.mem_singleton] at hl
              subst hl
              exact hcs
          simp only [readFilesGo, hres, hsafe, if_true, hread] at hloc
          by_cases hb : budget - n = 0
          · rw [if_pos hb] at hloc
            exact htr2 loc hloc
          · rw [if_neg hb] at hloc
            exact ih _ _ _ htr2 loc hloc
      · simp only [readFilesGo, hres, hsafe, if_false] at hloc
        exact ih _ _ _ htr loc hloc

/-- C1: every canonical file location whose bytes the enrichment read
pipeline (`read_output_files`, composed of `resolve_path`,
`is_safe_path` and `read_single_file`) ever returns lies under a
canonicalized safe root (the temp directory or `/tmp`).  In particular a
raw redirect path whose traversal escapes the safe root yields no byte
of any file outside it, whatever the filesystem and environment. -/
theorem c1_read_pipeline_safe (e : Env) (fs : Fs) (paths : List (List Char))
    (loc : List Component) (hloc : loc ∈ (read_output_files e fs paths).2) :
    safeLoc e fs loc = true := by
  unfold read_output_files at hloc
  simp only at hloc
  exact readFilesGo_trace_safe e fs paths [] MAX_FILE_READ_SIZE []
    (by intro l hl; cases hl) loc hloc

/-- Witness for C1: the pipeline actually reads `/tmp/x.txt` on the
witness filesystem, and that location is certified safe. -/
theorem c1_witness :
    (parseUnixPath "/tmp/x.txt".toList) ∈
      (read_output_files env0 fs0 ["/tmp/x.txt".toList]).2 ∧
    safeLoc env0 fs0 (parseUnixPath "/tmp/x.txt".toList) = true :=
  ⟨by decide, c1_read_pipeline_safe env0 fs0 ["/tmp/x.txt".toList] _ (by decide)⟩

/-! ### Claim C6: containment checks of resolve_path -/

/-- Environment of the C6 counterexample: only `HOME` is set. -/
def env6 : Env := ⟨none, none, none, none, some "/root"⟩

/-- Counterexample to C6 as stated: the `%userprofile%` placeholder is
resolved by a plain join, so `resolve_path` returns `Some` of a path
whose normalized form (`/etc/passwd`) escapes the safe root (`/root`,
the home directory) of that placeholder. -/
theorem c6_counterexample :
    resolve_path env6 "%userprofile%/../../etc/passwd".toList =
      some (parseUnixPath "/root/../../etc/passwd".toList) ∧
    normalize_path (parseUnixPath "/root/../../etc/passwd".toList) =
      parseUnixPath "/etc/passwd".toList ∧
    (parseUnixPath "/root".toList).isPrefixOf
      (normalize_path (parseUnixPath "/root/../../etc/passwd".toList)) = false := by
  decide

lemma getp_of_isPrefixOf {l m : List Char} {i : Nat} {a : Char}
    (h : l.isPrefixOf m = true) (ha : l.get? i = some a) : m.get? i = some a := by
  rw [List.isPrefixOf_iff_prefix] at h
  obtain ⟨t, rfl⟩ := h
  have hi : i < l.length := by
    by_contra hge
    rw [List.get?_eq_none.2 (le_of_not_lt hge)] at ha
    cases ha
  rw [List.get?_append hi]
  exact ha

/-- C6 (amended): for Unix absolute raw paths and for the temp
placeholders (`$env:TEMP`, `%temp%`), `resolve_path` only returns paths
whose logically normalized form stays under the expected safe root (the
normalized temp directory or `/tmp`); the `%userprofile%`/
`$env:USERPROFILE` placeholder performs no such check. -/
theorem c6_resolve_containment (e : Env) (raw : List Char) (p : List Component)
    (h : resolve_path e raw = some p) :
    (raw.head? = some '/' → tmpRoot.isPrefixOf p = true) ∧
    ((("$env:temp\\".toList.isPrefixOf (raw.map Char.toLower) = true ∨
        "$env:temp/".toList.isPrefixOf (raw.map Char.toLower) = true) ∨
      ("%temp%\\".toList.isPrefixOf (raw.map Char.toLower) = true ∨
        "%temp%/".toList.isPrefixOf (raw.map Char.toLower) = true)) →
      ((normalize_path (parseUnixPath (temp_dir e).toList)).isPrefixOf p = true ∨
        tmpRoot.isPrefixOf p = true)) := by
  simp only [resolve_path] at h
  by_cases hslash : raw.head? = some '/'
  · rw [if_pos hslash] at h
    split at h
    · rename_i htmp
      injection h with h
      subst h
      exact ⟨fun _ => htmp, fun _ => Or.inr htmp⟩
    · cases h
  · rw [if_neg hslash] at h
    refine ⟨fun hh => absurd hh hslash, fun hpre => ?_⟩
    by_cases hdrive : 3 ≤ raw.length ∧ raw.get? 1 = some ':' ∧
        (raw.get? 0).any isAsciiAlpha
    · exfalso
      have h1 : (raw.map Char.toLower).get? 1 = some 'e' ∨
          (raw.map Char.toLower).get? 1 = some 't' := by
        rcases hpre with (hp | hp) | (hp | hp)
        · exact Or.inl (getp_of_isPrefixOf hp (by decide))
        · exact Or.inl (getp_of_isPrefixOf hp (by decide))
        · exact Or.inr (getp_of_isPrefixOf hp (by decide))
        · exact Or.inr (getp_of_isPrefixOf hp (by decide))
      have h2 : (raw.map Char.toLower).get? 1 = some ':' := by
        rw [List.get?_map, hdrive.2.1]
        decide
      rcases h1 with h1 | h1 <;> rw [h2] at h1 <;>
        exact absurd h1 (by decide)
    · rw [if_neg hdrive] at h
      by_cases c1 : "$env:temp\\".toList.isPrefixOf (raw.map Char.toLower) = true ∨
          "$env:temp/".toList.isPrefixOf (raw.map Char.toLower) = true
      · rw [if_pos c1] at h
        simp only [resolve_temp_suffix] at h
        split at h
        · rename_i hc
          injection h with h
          subst h
          exact hc
        · cases h
      · rw [if_neg c1] at h
        by_cases c2 : "%temp%\\".toList.isPrefixOf (raw.map Char.toLower) = true ∨
            "%temp%/".toList.isPrefixOf (raw.map Char.toLower) = true
        · rw [if_pos c2] at h
          simp only [resolve_temp_suffix] at h
          split at h
          · rename_i hc
            injection h with h
            subst h
            exact hc
          · cases h
        · rcases hpre with hpre | hpre
          · exact absurd hpre c1
          · exact absurd hpre c2

/-- Witness for C6 (amended) at the raw path `/tmp/loot.txt`. -/
theorem c6_witness :
    resolve_path env0 "/tmp/loot.txt".toList =
      some (parseUnixPath "/tmp/loot.txt".toList) ∧
    tmpRoot.isPrefixOf (parseUnixPath "/tmp/loot.txt".toList) = true :=
  ⟨by decide,
    (c6_resolve_containment env0 "/tmp/loot.txt".toList _ (by decide)).1 (by decide)⟩

/-! ### Claim C7: shape of extract_output_paths -/

/-- Index of the first occurrence of `pat` as a contiguous substring of a
character list. -/
def firstSubPos (pat : List Char) : List Char → Option Nat
  | [] => if pat.isPrefixOf ([] : List Char) then some 0 else none
  | c :: t =>
    if pat.isPrefixOf (c :: t) then some 0 else (firstSubPos pat t).map (· + 1)

lemma pushUnique_nodup {acc : List (List Char)} {p : List Char}
    (h : acc.Nodup) : (pushUnique acc p).Nodup := by
  unfold pushUnique
  split
  · exact h
  · rename_i hc
    have hp : p ∉ acc := by
      intro hm
      exact hc (List.elem_eq_true_of_mem hm)
    simp [List.nodup_append, h, hp]

lemma mem_pushUnique {acc : List (List Char)} {p x : List Char} :
    x ∈ pushUnique acc p ↔ x ∈ acc ∨ x = p := by
  unfold pushUnique
  split
  · rename_i hc
    have hp : p ∈ acc := by
      have := hc
      simpa [List.elem_iff] using this
    constructor
    · exact Or.inl
    · rintro (h | rfl)
      · exact h
      · exact hp
  · simp

lemma foldl_pushUnique_nodup (l : List (List Char)) :
    ∀ acc : List (List Char), acc.Nodup → (l.foldl pushUnique acc).Nodup := by
  induction l with
  | nil => intro acc h; exact h
  | cons a t ih => intro acc h; exact ih _ (pushUnique_nodup h)

lemma mem_foldl_pushUnique (l : List (List Char)) :
    ∀ (acc : List (List Char)) (x : List Char),
      x ∈ l.foldl pushUnique acc ↔ x ∈ acc ∨ x ∈ l := by
  induction l with
  | nil => intro acc x; simp
  | cons a t ih =>
    intro acc x
    rw [List.foldl_cons, ih, mem_pushUnique]
    simp only [List.mem_cons]
    tauto

lemma foldl_pats_nodup (s : List Char)
    (pats : List (List Char → Option (List Char × List Char))) :
    ∀ acc : List (List Char), acc.Nodup →
      (pats.foldl (fun acc pat => (scanMatches pat s).foldl pushUnique acc) acc).Nodup := by
  induction pats with
  | nil => intro acc h; exact h
  | cons a t ih => intro acc h; exact ih _ (foldl_pushUnique_nodup _ _ h)

lemma collect_matches_nodup (s : List Char)
    (pats : List (List Char → Option (List Char × List Char))) :
    (collect_matches s pats).Nodup :=
  foldl_pats_nodup s pats [] List.nodup_nil

lemma mem_foldl_pats (s : List Char)
    (pats : List (List Char → Option (List Char × List Char))) :
    ∀ (acc : List (List Char)) (x : List Char),
      x ∈ pats.foldl (fun acc pat => (scanMatches pat s).foldl pushUnique acc) acc ↔
        x ∈ acc ∨ ∃ pat ∈ pats, x ∈ scanMatches pat s := by
  induction pats with
  | nil => intro acc x; simp
  | cons a t ih =>
    intro acc x
    rw [List.foldl_cons, ih, mem_foldl_pushUnique]
    simp only [List.mem_cons]
    constructor
    · rintro ((h | h) | ⟨pat, hpat, hx⟩)
      · exact Or.inl h
      · exact Or.inr ⟨a, Or.inl rfl, h⟩
      · exact Or.inr ⟨pat, Or.inr hpat, hx⟩
    · rintro (h | ⟨pat, (rfl | hpat), hx⟩)
      · exact Or.inl (Or.inl h)
      · exact Or.inl (Or.inr hx)
      · exact Or.inr ⟨pat, hpat, hx⟩

lemma mem_collect_matches (s : List Char)
    (pats : List (List Char → Option (List Char × List Char))) (x : List Char) :
    x ∈ collect_matches s pats ↔ ∃ pat ∈ pats, x ∈ scanMatches pat s := by
  unfold collect_matches
  rw [mem_foldl_pats]
  simp

/-- C7 (amended): `extract_output_paths` returns deduplicated captures
(no path twice); a dialect outside the recognized set extracts nothing;
and for the PowerShell dialect a path is returned exactly when one of the
four patterns (redirection to an environment placeholder, `Out-File`,
`Set-Content`, redirection to `/tmp`) matches it somewhere in the
command.  The matches are grouped pattern by pattern (each pattern
scanned left to right), not globally ordered by first occurrence in the
command string. -/
theorem c7_extraction_shape :
    (∀ (command : List Char) (executor_type : String),
      (extract_output_paths command executor_type).Nodup) ∧
    (∀ (command : List Char) (executor_type : String),
      executor_type ∉ (["sh", "bash", "zsh", "cmd", "powershell", "ps", "pwsh",
        "powershell7"] : List String) →
      extract_output_paths command executor_type = []) ∧
    (∀ (command x : List Char),
      x ∈ extract_output_paths command "powershell" ↔
        (x ∈ scanMatches tryPsRedirect command ∨ x ∈ scanMatches tryOutFile command ∨
          x ∈ scanMatches trySetContent command ∨
          x ∈ scanMatches tryShRedirect command)) := by
  refine ⟨?_, ?_, ?_⟩
  · intro c d
    unfold extract_output_paths
    split_ifs <;> first | exact collect_matches_nodup _ _ | exact List.nodup_nil
  · intro c d h
    simp only [List.mem_cons, List.not_mem_nil, or_false] at h
    push_neg at h
    obtain ⟨h1, h2, h3, h4, h5, h6, h7, h8⟩ := h
    simp [extract_output_paths, h1, h2, h3, h4, h5, h6, h7, h8]
  · intro c x
    unfold extract_output_paths
    rw [if_neg (by decide), if_neg (by decide), if_pos (by decide),
      mem_collect_matches]
    simp only [List.mem_cons, List.not_mem_nil, or_false]
    constructor
    · rintro ⟨pat, (rfl | rfl | rfl | rfl), hx⟩
      · exact Or.inl hx
      · exact Or.inr (Or.inl hx)
      · exact Or.inr (Or.inr (Or.inl hx))
      · exact Or.inr (Or.inr (Or.inr hx))
    · rintro (hx | hx | hx | hx)
      · exact ⟨tryPsRedirect, Or.inl rfl, hx⟩
      · exact ⟨tryOutFile, Or.inr (Or.inl rfl), hx⟩
      · exact ⟨trySetContent, Or.inr (Or.inr (Or.inl rfl)), hx⟩
      · exact ⟨tryShRedirect, Or.inr (Or.inr (Or.inr rfl)), hx⟩

/-- Witness for C7 (amended): an unknown dialect extracts nothing, and a
bash extraction is duplicate free. -/
theorem c7_witness :
    extract_output_paths "echo test > /tmp/file.txt".toList "unknown" = [] ∧
    (extract_output_paths "ps aux > /tmp/loot.txt".toList "bash").Nodup :=
  ⟨c7_extraction_shape.2.1 _ "unknown" (by decide), c7_extraction_shape.1 _ _⟩

/-- The PowerShell command of the C7 counterexample: a `Set-Content`
target appearing before a `>` redirection target. -/
def cmdC7 : List Char :=
  "Set-Content -Path $env:TEMP\\a.txt -Value x; dir > $env:TEMP\\b.txt".toList

/-- Counterexample to C7 as stated: for the PowerShell dialect the
patterns are scanned one after the other, so the `>` redirection target
`$env:TEMP\b.txt` (first substring occurrence at index 50) is listed
before the `Set-Content` target `$env:TEMP\a.txt` (first substring
occurrence at index 18): the result is not in first-occurrence order
within the command string. -/
theorem c7_counterexample :
    extract_output_paths cmdC7 "powershell" =
      ["$env:TEMP\\b.txt".toList, "$env:TEMP\\a.txt".toList] ∧
    firstSubPos "$env:TEMP\\a.txt".toList cmdC7 = some 18 ∧
    firstSubPos "$env:TEMP\\b.txt".toList cmdC7 = some 50 ∧
    (18 : Nat) < 50 :=
  ⟨by decide, by decide, by decide, by decide⟩

/-! ### Claim C2: size bound and UTF-8 safety of the execute output -/

lemma utf8Len_nil : utf8Len [] = 0 := rfl

lemma utf8Len_cons (c : Char) (cs : List Char) :
    utf8Len (c :: cs) = charUtf8Size c + utf8Len cs := by
  simp [utf8Len]

lemma utf8Len_append (l m : List Char) :
    utf8Len (l ++ m) = utf8Len l + utf8Len m := by
  simp [utf8Len]

lemma charUtf8Size_pos (c : Char) : 1 ≤ charUtf8Size c := by
  unfold charUtf8Size
  split_ifs <;> norm_num

lemma utf8Len_reverse (l : List Char) : utf8Len l.reverse = utf8Len l := by
  unfold utf8Len
  rw [List.map_reverse, List.sum_reverse]

lemma utf8Len_le_of_sublist {l m : List Char} (h : l.Sublist m) :
    utf8Len l ≤ utf8Len m :=
  List.Sublist.sum_le_sum (h.map charUtf8Size) (fun _ _ => Nat.zero_le _)

lemma rustTrim_sublist (cs : List Char) : (rustTrim cs).Sublist cs := by
  unfold rustTrim
  have h1 : (((cs.dropWhile isRustWhitespace).reverse.dropWhile
      isRustWhitespace).reverse).Sublist
      ((cs.dropWhile isRustWhitespace).reverse.reverse) :=
    (List.dropWhile_sublist _).reverse
  rw [List.reverse_reverse] at h1
  exact h1.trans (List.dropWhile_sublist _)

lemma utf8Len_rustTrim_le (cs : List Char) : utf8Len (rustTrim cs) ≤ utf8Len cs :=
  utf8Len_le_of_sublist (rustTrim_sublist cs)

lemma utf8EncodeChar_length (c : Char) :
    (utf8EncodeChar c).length = charUtf8Size c := by
  simp only [utf8EncodeChar, charUtf8Size]
  split_ifs <;> rfl

lemma utf8Len_eq_encode_length (cs : List Char) :
    utf8Len cs = (utf8Encode cs).length := by
  induction cs with
  | nil => rfl
  | cons c t ih =>
    rw [utf8Len_cons, ih]
    simp [utf8Encode, utf8EncodeChar_length]

lemma truncAt_le (cs : List Char) : ∀ b, utf8Len (truncAt cs b) ≤ b := by
  induction cs with
  | nil => intro b; cases b <;> simp [truncAt, utf8Len_nil]
  | cons c t ih =>
    intro b
    cases b with
    | zero => simp [truncAt, utf8Len_nil]
    | succ b0 =>
      rw [truncAt]
      split
      · rename_i hle
        rw [utf8Len_cons]
        have := ih (b0 + 1 - charUtf8Size c)
        omega
      · simp [utf8Len_nil]

lemma truncAt_full (cs : List Char) : truncAt cs (utf8Len cs) = cs := by
  induction cs with
  | nil => rfl
  | cons c t ih =>
    have hpos := charUtf8Size_pos c
    obtain ⟨k, hk⟩ : ∃ k, charUtf8Size c + utf8Len t = k + 1 :=
      ⟨charUtf8Size c + utf8Len t - 1, by omega⟩
    rw [utf8Len_cons, hk, truncAt, if_pos (by omega)]
    have hsub : k + 1 - charUtf8Size c = utf8Len t := by omega
    rw [hsub, ih]

lemma isCharBoundary_utf8Len (cs : List Char) :
    isCharBoundary cs (utf8Len cs) = true := by
  induction cs with
  | nil => rfl
  | cons c t ih =>
    have hpos := charUtf8Size_pos c
    obtain ⟨k, hk⟩ : ∃ k, charUtf8Size c + utf8Len t = k + 1 :=
      ⟨charUtf8Size c + utf8Len t - 1, by omega⟩
    rw [utf8Len_cons, hk, isCharBoundary, if_neg (by omega)]
    have hsub : k + 1 - charUtf8Size c = utf8Len t := by omega
    rw [hsub]
    exact ih

lemma boundaryDown_le (cs : List Char) : ∀ b, boundaryDown cs b ≤ b := by
  intro b
  induction b with
  | zero => simp [boundaryDown]
  | succ b0 ih =>
    rw [boundaryDown]
    split
    · exact le_refl _
    · exact le_trans ih (Nat.le_succ b0)

lemma isCharBoundary_zero (cs : List Char) : isCharBoundary cs 0 = true := by
  cases cs <;> rfl

lemma boundaryDown_isBoundary (cs : List Char) :
    ∀ b, isCharBoundary cs (boundaryDown cs b) = true := by
  intro b
  induction b with
  | zero => rw [boundaryDown]; exact isCharBoundary_zero cs
  | succ b0 ih =>
    rw [boundaryDown]
    split
    · rename_i hb; exact hb
    · exact ih

lemma find_char_boundary_isBoundary (cs : List Char) (mx : Nat) :
    isCharBoundary cs (find_char_boundary cs mx) = true := by
  unfold find_char_boundary
  split
  · exact isCharBoundary_utf8Len cs
  · exact boundaryDown_isBoundary cs mx

lemma truncAt_find_le (cs : List Char) (mx : Nat) :
    utf8Len (truncAt cs (find_char_boundary cs mx)) ≤ mx := by
  unfold find_char_boundary
  split
  · rename_i h
    rw [truncAt_full]
    exact h
  · exact le_trans (truncAt_le cs _) (boundaryDown_le cs mx)

lemma drain_stream_len (chunks : List (List Nat)) :
    ∀ b, (drain_stream chunks b).1.length + (drain_stream chunks b).2 = b := by
  induction chunks with
  | nil => intro b; cases b <;> simp [drain_stream]
  | cons chunk rest ih =>
    intro b
    cases b with
    | zero => simp [drain_stream]
    | succ b0 =>
      rw [drain_stream]
      all_goals try omega
      by_cases hc : chunk.length = 0
      · simp [hc]
      · rw [if_neg hc]
        simp only [claim_budget]
        have h1 : min chunk.length (b0 + 1) ≤ chunk.length := min_le_left _ _
        have h2 : min chunk.length (b0 + 1) ≤ b0 + 1 := min_le_right _ _
        by_cases hlt : min chunk.length (b0 + 1) < chunk.length
        · rw [if_pos hlt]
          simp only [List.length_take]
          omega
        · rw [if_neg hlt]
          have hr := ih (b0 + 1 - min chunk.length (b0 + 1))
          simp only [List.length_append, List.length_take]
          omega

lemma drain_stream_replicate (a cnt : Nat) (hc : 0 < cnt) :
    ∀ k, drain_stream (List.replicate k (List.replicate cnt a)) (k * cnt) =
      (List.replicate (k * cnt) a, 0) := by
  intro k
  induction k with
  | zero => simp [drain_stream]
  | succ k ih =>
    have hb : (k + 1) * cnt = cnt + k * cnt := by ring
    rw [List.replicate_succ, hb]
    obtain ⟨m, hm⟩ : ∃ m, cnt + k * cnt = m + 1 := ⟨cnt + k * cnt - 1, by omega⟩
    rw [hm, drain_stream]
    all_goals try omega
    rw [if_neg (by simp [hc.ne'])]
    simp only [claim_budget, List.length_replicate]
    have hmin : min cnt (m + 1) = cnt := min_eq_left (by omega)
    rw [hmin, if_neg (lt_irrefl cnt)]
    have hsub : m + 1 - cnt = k * cnt := by omega
    rw [hsub, ih]
    simp only [List.take_replicate, min_self]
    rw [← List.replicate_add, hm]

lemma utf8DecodeLossy_ascii_cons {b : Nat} (hb : b < 0x80) (bs : List Nat) :
    utf8DecodeLossy (b :: bs) = Char.ofNat b :: utf8DecodeLossy bs := by
  rw [utf8DecodeLossy.eq_def]
  simp [hb]

lemma utf8DecodeLossy_ascii (n : Nat) :
    utf8DecodeLossy (List.replicate n 97) = List.replicate n 'a' := by
  induction n with
  | zero => rfl
  | succ n ih =>
    rw [List.replicate_succ, utf8DecodeLossy_ascii_cons (by norm_num), ih,
      List.replicate_succ]

lemma dropWhile_replicate_stable {α : Type} (p : α → Bool) (a : α)
    (h : p a = false) (n : Nat) :
    List.dropWhile p (List.replicate n a) = List.replicate n a := by
  cases n with
  | zero => rfl
  | succ n0 => simp [List.replicate_succ, List.dropWhile_cons, h]

lemma rustTrim_replicate_a (n : Nat) :
    rustTrim (List.replicate n 'a') = List.replicate n 'a' := by
  unfold rustTrim
  rw [dropWhile_replicate_stable _ _ (by decide), List.reverse_replicate,
    dropWhile_replicate_stable _ _ (by decide), List.reverse_replicate]

lemma utf8Len_replicate_a (n : Nat) :
    utf8Len (List.replicate n 'a') = n := by
  have h : charUtf8Size 'a' = 1 := rfl
  simp [utf8Len, List.map_replicate, List.sum_replicate, h]

lemma toNat_ofNat_of_valid {n : Nat} (h : n.isValidChar) :
    (Char.ofNat n).toNat = n := by
  rw [Char.ofNat, dif_pos h]
  rfl

lemma charUtf8Size_le_four (c : Char) : charUtf8Size c ≤ 4 := by
  unfold charUtf8Size
  split_ifs <;> omega

lemma charUtf8Size_ofNat_ascii {b : Nat} (hb : b < 128) :
    charUtf8Size (Char.ofNat b) = 1 := by
  have hv : b.isValidChar := Or.inl (by omega)
  unfold charUtf8Size
  rw [toNat_ofNat_of_valid hv, if_pos hb]

/-- Lossy decoding expands each input byte into at most three output
bytes: a valid sequence of k bytes decodes to one character of k bytes,
and each byte of a maximal invalid subsequence costs at most one three
byte replacement character. -/
lemma utf8Len_decode_le (bs : List Nat) :
    utf8Len (utf8DecodeLossy bs) ≤ 3 * bs.length := by
  have hrep : charUtf8Size repChar = 3 := by decide
  induction bs using utf8DecodeLossy.induct
  all_goals rw [utf8DecodeLossy.eq_def]
  all_goals simp only [*, if_true, if_false, ite_true, ite_false, and_self,
    true_and, and_true, utf8Len_cons, utf8Len_nil, List.length_cons,
    List.length_nil]
  all_goals simp only [List.length_cons] at *
  all_goals try omega
  case case2 => rw [charUtf8Size_ofNat_ascii (by assumption)]; omega
  case case5 => exact le_trans (add_le_add_right (charUtf8Size_le_four _) _) (by omega)
  case case9 => exact le_trans (add_le_add_right (charUtf8Size_le_four _) _) (by omega)
  case case15 => exact le_trans (add_le_add_right (charUtf8Size_le_four _) _) (by omega)

lemma drain_stream_replicate_le (a cnt : Nat) (hc : 0 < cnt) :
    ∀ (k b : Nat), k * cnt ≤ b →
      drain_stream (List.replicate k (List.replicate cnt a)) b =
        (List.replicate (k * cnt) a, b - k * cnt) := by
  intro k
  induction k with
  | zero => intro b hb; cases b <;> simp [drain_stream]
  | succ k ih =>
    intro b hb
    have hcnt : cnt ≤ b := le_trans (by nlinarith) hb
    obtain ⟨m, hm⟩ : ∃ m, b = m + 1 := ⟨b - 1, by omega⟩
    subst hm
    rw [List.replicate_succ, drain_stream]
    all_goals try omega
    rw [if_neg (by simp [hc.ne'])]
    simp only [claim_budget, List.length_replicate]
    have hmin : min cnt (m + 1) = cnt := min_eq_left (by omega)
    rw [hmin, if_neg (lt_irrefl cnt)]
    have hrec : k * cnt ≤ m + 1 - cnt := by
      have hmul : (k + 1) * cnt = k * cnt + cnt := by ring
      omega
    rw [ih (m + 1 - cnt) hrec]
    simp only [List.take_replicate, min_self]
    rw [← List.replicate_add]
    have h1 : cnt + k * cnt = (k + 1) * cnt := by ring
    rw [h1]
    have h2 : m + 1 - cnt - k * cnt = m + 1 - (k + 1) * cnt := by
      have hmul : (k + 1) * cnt = k * cnt + cnt := by ring
      omega
    rw [h2]

lemma utf8DecodeLossy_ff_cons (bs : List Nat) :
    utf8DecodeLossy (255 :: bs) = repChar :: utf8DecodeLossy bs := by
  rw [utf8DecodeLossy.eq_def]
  norm_num

lemma utf8DecodeLossy_ff (n : Nat) :
    utf8DecodeLossy (List.replicate n 255) = List.replicate n repChar := by
  induction n with
  | zero => rfl
  | succ n ih =>
    rw [List.replicate_succ, utf8DecodeLossy_ff_cons, ih, List.replicate_succ]

lemma rustTrim_replicate {c : Char} (h : isRustWhitespace c = false) (n : Nat) :
    rustTrim (List.replicate n c) = List.replicate n c := by
  unfold rustTrim
  rw [dropWhile_replicate_stable _ _ h, List.reverse_replicate,
    dropWhile_replicate_stable _ _ h, List.reverse_replicate]

lemma utf8Len_replicate (c : Char) (n : Nat) :
    utf8Len (List.replicate n c) = n * charUtf8Size c := by
  simp [utf8Len, List.map_replicate, List.sum_replicate, smul_eq_mul]

lemma execute_ok_output (sc ec : List (List Nat)) (succ : Bool)
    (code : Option Int) :
    (execute sc ec false (Except.ok (succ, code))).1.output =
      assembleOutput (drain_stream sc MAX_OUTPUT_SIZE).1
        (drain_stream ec (drain_stream sc MAX_OUTPUT_SIZE).2).1
        (decide ((drain_stream ec (drain_stream sc MAX_OUTPUT_SIZE).2).2 = 0)) :=
  rfl

/-- C2 (amended): for every execution that completes without timing out,
the byte length of the output of `CommandExecutor::execute` is at most
`3 * MAX_OUTPUT_SIZE - 3` bytes (3,145,725): the budget caps the bytes
drained from the process streams at 1 MiB, but `from_utf8_lossy` can
expand each invalid byte into the three byte replacement character
U+FFFD, and the truncate-and-mark path only runs when the byte budget
itself was exhausted.  The truncation point chosen by
`find_char_boundary` is always a valid UTF-8 character boundary, so
truncation never splits a multi-byte character.  When the drained bytes
are valid UTF-8 the bound sharpens to `MAX_OUTPUT_SIZE` plus the
23 byte truncation marker (1,048,599). -/
theorem c2_output_size_bound (sc ec : List (List Nat))
    (waitRes : Except Unit (Bool × Option Int)) :
    utf8Len (execute sc ec false waitRes).1.output ≤ 3 * MAX_OUTPUT_SIZE - 3 ∧
    isCharBoundary
      (rustTrim (utf8DecodeLossy (drain_stream sc MAX_OUTPUT_SIZE).1 ++
        utf8DecodeLossy (drain_stream ec (drain_stream sc MAX_OUTPUT_SIZE).2).1))
      (find_char_boundary
        (rustTrim (utf8DecodeLossy (drain_stream sc MAX_OUTPUT_SIZE).1 ++
          utf8DecodeLossy (drain_stream ec (drain_stream sc MAX_OUTPUT_SIZE).2).1))
        MAX_OUTPUT_SIZE) = true ∧
    (utf8Encode (utf8DecodeLossy (drain_stream sc MAX_OUTPUT_SIZE).1) =
        (drain_stream sc MAX_OUTPUT_SIZE).1 →
      utf8Encode (utf8DecodeLossy
          (drain_stream ec (drain_stream sc MAX_OUTPUT_SIZE).2).1) =
        (drain_stream ec (drain_stream sc MAX_OUTPUT_SIZE).2).1 →
      utf8Len (execute sc ec false waitRes).1.output ≤
        MAX_OUTPUT_SIZE + utf8Len truncationMarker) := by
  have hout : (execute sc ec false waitRes).1.output =
      assembleOutput (drain_stream sc MAX_OUTPUT_SIZE).1
        (drain_stream ec (drain_stream sc MAX_OUTPUT_SIZE).2).1
        (decide ((drain_stream ec (drain_stream sc MAX_OUTPUT_SIZE).2).2 = 0)) := by
    cases waitRes with
    | ok t => obtain ⟨succ, code⟩ := t; rfl
    | error u => rfl
  have hmark : utf8Len truncationMarker = 23 := by decide
  have hM : MAX_OUTPUT_SIZE = 1048576 := rfl
  refine ⟨?_, find_char_boundary_isBoundary _ _, fun hs he => ?_⟩
  · rw [hout]
    unfold assembleOutput
    split
    · rw [utf8Len_append]
      have h1 := truncAt_find_le (rustTrim (utf8DecodeLossy
        (drain_stream sc MAX_OUTPUT_SIZE).1 ++
        utf8DecodeLossy (drain_stream ec (drain_stream sc MAX_OUTPUT_SIZE).2).1))
        MAX_OUTPUT_SIZE
      omega
    · rename_i hnz
      have he2 : (drain_stream ec (drain_stream sc MAX_OUTPUT_SIZE).2).2 ≠ 0 := by
        simpa using hnz
      have h1 := drain_stream_len sc MAX_OUTPUT_SIZE
      have h2 := drain_stream_len ec (drain_stream sc MAX_OUTPUT_SIZE).2
      have hd1 := utf8Len_decode_le (drain_stream sc MAX_OUTPUT_SIZE).1
      have hd2 := utf8Len_decode_le
        (drain_stream ec (drain_stream sc MAX_OUTPUT_SIZE).2).1
      have htr := utf8Len_rustTrim_le (utf8DecodeLossy
        (drain_stream sc MAX_OUTPUT_SIZE).1 ++
        utf8DecodeLossy (drain_stream ec (drain_stream sc MAX_OUTPUT_SIZE).2).1)
      rw [utf8Len_append] at htr
      omega
  · have hsl : utf8Len (utf8DecodeLossy (drain_stream sc MAX_OUTPUT_SIZE).1) =
        (drain_stream sc MAX_OUTPUT_SIZE).1.length := by
      rw [utf8Len_eq_encode_length, hs]
    have hel : utf8Len (utf8DecodeLossy
          (drain_stream ec (drain_stream sc MAX_OUTPUT_SIZE).2).1) =
        (drain_stream ec (drain_stream sc MAX_OUTPUT_SIZE).2).1.length := by
      rw [utf8Len_eq_encode_length, he]
    have hbound : (drain_stream sc MAX_OUTPUT_SIZE).1.length +
        (drain_stream ec (drain_stream sc MAX_OUTPUT_SIZE).2).1.length ≤
          MAX_OUTPUT_SIZE := by
      have h1 := drain_stream_len sc MAX_OUTPUT_SIZE
      have h2 := drain_stream_len ec (drain_stream sc MAX_OUTPUT_SIZE).2
      omega
    rw [hout]
    unfold assembleOutput
    have htrim : utf8Len (rustTrim (utf8DecodeLossy
        (drain_stream sc MAX_OUTPUT_SIZE).1 ++
        utf8DecodeLossy (drain_stream ec (drain_stream sc MAX_OUTPUT_SIZE).2).1)) ≤
          MAX_OUTPUT_SIZE := by
      refine le_trans (utf8Len_rustTrim_le _) ?_
      rw [utf8Len_append, hsl, hel]
      exact hbound
    split
    · rw [utf8Len_append]
      have h1 := truncAt_find_le (rustTrim (utf8DecodeLossy
        (drain_stream sc MAX_OUTPUT_SIZE).1 ++
        utf8DecodeLossy (drain_stream ec (drain_stream sc MAX_OUTPUT_SIZE).2).1))
        MAX_OUTPUT_SIZE
      omega
    · omega

/-- Witness for C2 (amended) at a two byte ASCII output: the general
bound holds, and discharging the valid-UTF-8 hypotheses gives the sharp
bound. -/
theorem c2_witness :
    utf8Len (execute [[104, 105]] [] false (Except.ok (true, some 0))).1.output ≤
      3 * MAX_OUTPUT_SIZE - 3 ∧
    utf8Len (execute [[104, 105]] [] false (Except.ok (true, some 0))).1.output ≤
      MAX_OUTPUT_SIZE + utf8Len truncationMarker :=
  ⟨(c2_output_size_bound [[104, 105]] [] (Except.ok (true, some 0))).1,
    (c2_output_size_bound [[104, 105]] [] (Except.ok (true, some 0))).2.2
      (by decide) (by decide)⟩

/-- Counterexample to C2 as stated, in two parts.  First, a command
emitting exactly 1 MiB of ASCII on stdout (128 reads of 8192 bytes)
exhausts the budget, so the trimmed output is already exactly
`MAX_OUTPUT_SIZE` bytes and the 23 byte marker is appended after
truncation: the returned output is 1,048,599 bytes, exceeding the
claimed 1 MiB cap.  Second, a command emitting 1,048,575 invalid bytes
`0xFF` (1023 reads of 1025 bytes) leaves one byte of budget, so no
truncation happens at all, and lossy decoding expands every byte into
the three byte replacement character: the returned output is 3,145,725
bytes, nearly three times the claimed cap and far beyond even the
cap-plus-marker bound of the truncated path. -/
theorem c2_counterexample :
    (MAX_OUTPUT_SIZE <
      utf8Len (execute (List.replicate 128 (List.replicate 8192 97)) [] false
        (Except.ok (true, some 0))).1.output) ∧
    (utf8Len (execute (List.replicate 1023 (List.replicate 1025 255)) [] false
        (Except.ok (true, some 0))).1.output = 3 * MAX_OUTPUT_SIZE - 3) ∧
    (MAX_OUTPUT_SIZE + utf8Len truncationMarker <
      utf8Len (execute (List.replicate 1023 (List.replicate 1025 255)) [] false
        (Except.ok (true, some 0))).1.output) := by
  have hmark : utf8Len truncationMarker = 23 := by decide
  have hM : MAX_OUTPUT_SIZE = 1048576 := rfl
  have hascii : MAX_OUTPUT_SIZE <
      utf8Len (execute (List.replicate 128 (List.replicate 8192 97)) [] false
        (Except.ok (true, some 0))).1.output := by
    have hdrain : drain_stream (List.replicate 128 (List.replicate 8192 97))
        MAX_OUTPUT_SIZE = (List.replicate 1048576 97, 0) := by
      have h := drain_stream_replicate 97 8192 (by norm_num) 128
      have he : (128 : Nat) * 8192 = 1048576 := by norm_num
      rw [he] at h
      exact h
    have hout : (execute (List.replicate 128 (List.replicate 8192 97)) [] false
        (Except.ok (true, some 0))).1.output =
        assembleOutput (List.replicate 1048576 97) [] true := by
      rw [execute_ok_output, hdrain]
      rfl
    rw [hout]
    unfold assembleOutput
    rw [if_pos rfl]
    have hdec : utf8DecodeLossy (List.replicate 1048576 97) =
        List.replicate 1048576 'a' := utf8DecodeLossy_ascii 1048576
    have hnil : utf8DecodeLossy ([] : List Nat) = [] := by
      rw [utf8DecodeLossy.eq_def]
    rw [hdec, hnil, List.append_nil, rustTrim_replicate_a]
    have hfind : find_char_boundary (List.replicate 1048576 'a')
        MAX_OUTPUT_SIZE = 1048576 := by
      unfold find_char_boundary
      rw [utf8Len_replicate_a]
      rw [if_pos (by norm_num [MAX_OUTPUT_SIZE])]
    rw [hfind]
    have htr : truncAt (List.replicate 1048576 'a') 1048576 =
        List.replicate 1048576 'a' := by
      have h := truncAt_full (List.replicate 1048576 'a')
      rwa [utf8Len_replicate_a] at h
    rw [htr, utf8Len_append, utf8Len_replicate_a, hmark]
    norm_num [MAX_OUTPUT_SIZE]
  have hff : utf8Len (execute (List.replicate 1023 (List.replicate 1025 255)) []
      false (Except.ok (true, some 0))).1.output = 3 * MAX_OUTPUT_SIZE - 3 := by
    have hdrain : drain_stream (List.replicate 1023 (List.replicate 1025 255))
        MAX_OUTPUT_SIZE = (List.replicate 1048575 255, 1) := by
      have h := drain_stream_replicate_le 255 1025 (by norm_num) 1023
        MAX_OUTPUT_SIZE (by norm_num [MAX_OUTPUT_SIZE])
      have he : (1023 : Nat) * 1025 = 1048575 := by norm_num
      rw [he] at h
      rw [h]
      norm_num [MAX_OUTPUT_SIZE]
    have hout : (execute (List.replicate 1023 (List.replicate 1025 255)) [] false
        (Except.ok (true, some 0))).1.output =
        assembleOutput (List.replicate 1048575 255) [] false := by
      rw [execute_ok_output, hdrain]
      rfl
    rw [hout]
    unfold assembleOutput
    rw [if_neg (by decide)]
    have hnil : utf8DecodeLossy ([] : List Nat) = [] := by
      rw [utf8DecodeLossy.eq_def]
    have hreps : charUtf8Size repChar = 3 := by decide
    rw [utf8DecodeLossy_ff, hnil, List.append_nil,
      rustTrim_replicate (by decide), utf8Len_replicate, hreps]
    norm_num [MAX_OUTPUT_SIZE]
  refine ⟨hascii, hff, ?_⟩
  rw [hff]
  omega

end Agent
